import Mathlib

/-!
Verification development for the NFE status monitor
(`src/extraction_jobs/python/nfe_status.py`).

The Python source is shallowly embedded: pure helpers become Lean
functions, the PostgreSQL history table becomes an explicit `Store`
value threaded through the persistence functions, and timestamps are
modelled as integers counting seconds (a `timedelta` of `d` days is
`d * 86400` seconds).
-/

namespace NFE

/-! ## Key normalizer (`normalize_key`, nfe_status.py lines 83-90) -/

/-- Composition of `unicodedata.normalize('NFD', ·)` with the removal of
combining marks (category `Mn`), tabulated character by character over the
Latin accented repertoire this page uses.  An accented letter decomposes
into its base letter (the combining mark is dropped); a bare combining
mark is dropped; every other character decomposes to itself (the default
branch of `stripMarks`). -/
def stripTable : List (Char × List Char) :=
  [('Á', ['A']), ('À', ['A']), ('Â', ['A']), ('Ã', ['A']), ('Ä', ['A']),
   ('É', ['E']), ('È', ['E']), ('Ê', ['E']), ('Í', ['I']), ('Ì', ['I']),
   ('Ó', ['O']), ('Ò', ['O']), ('Ô', ['O']), ('Õ', ['O']), ('Ö', ['O']),
   ('Ú', ['U']), ('Ù', ['U']), ('Û', ['U']), ('Ü', ['U']), ('Ç', ['C']),
   ('á', ['a']), ('à', ['a']), ('â', ['a']), ('ã', ['a']), ('ä', ['a']),
   ('é', ['e']), ('è', ['e']), ('ê', ['e']), ('í', ['i']), ('ì', ['i']),
   ('ó', ['o']), ('ò', ['o']), ('ô', ['o']), ('õ', ['o']), ('ö', ['o']),
   ('ú', ['u']), ('ù', ['u']), ('û', ['u']), ('ü', ['u']), ('ç', ['c']),
   ('̀', []), ('́', []), ('̂', []), ('̃', []),
   ('̈', []), ('̧', [])]

/-- Per-character NFD decomposition followed by dropping `Mn` characters. -/
def stripMarks (c : Char) : List Char :=
  (stripTable.lookup c).getD [c]

/-- The character class `[a-zA-Z0-9]` of the regex at line 88
(`re.sub(r'[^a-zA-Z0-9]', '_', key)`), by code point. -/
def isAlnumAscii (c : Char) : Bool :=
  (65 ≤ c.toNat && c.toNat ≤ 90) || (97 ≤ c.toNat && c.toNat ≤ 122) ||
    (48 ≤ c.toNat && c.toNat ≤ 57)

/-- `re.sub(r'[^a-zA-Z0-9]', '_', key)`: the class is a single character,
so the substitution is a character map. -/
def underscoreNonAlnum (c : Char) : Char :=
  if isAlnumAscii c then c else '_'

/-- `re.sub(r'_+', '_', key)`: collapse every run of underscores to a
single underscore, i.e. drop each underscore immediately followed by
another one. -/
def collapseUnderscores : List Char → List Char
  | [] => []
  | [c] => [c]
  | c1 :: c2 :: rest =>
    if c1 = '_' && c2 = '_' then collapseUnderscores (c2 :: rest)
    else c1 :: collapseUnderscores (c2 :: rest)

/-- Remove the trailing run of underscores. -/
def dropTrailingUnderscores (l : List Char) : List Char :=
  (l.reverse.dropWhile (· = '_')).reverse

/-- `key.strip('_')`: remove the leading and the trailing run of
underscores. -/
def stripUnderscores (l : List Char) : List Char :=
  dropTrailingUnderscores (l.dropWhile (· = '_'))

/-- `normalize_key` (lines 83-90): NFD-decompose and drop combining
marks, replace every non-alphanumeric character by `_`, collapse runs of
`_`, strip outer `_`, lowercase. -/
def normalizeKey (s : String) : String :=
  ⟨(stripUnderscores
      (collapseUnderscores
        ((s.data.flatMap stripMarks).map underscoreNonAlnum))).map Char.toLower⟩

/-- Characters allowed in a normalized key: `[a-z0-9_]`. -/
def isOutChar (c : Char) : Bool :=
  (97 ≤ c.toNat && c.toNat ≤ 122) || (48 ≤ c.toNat && c.toNat ≤ 57) ||
    c.toNat = 95

/-- No two consecutive underscores. -/
def noDoubleB : List Char → Bool
  | [] => true
  | [_] => true
  | c1 :: c2 :: rest => !(c1 = '_' && c2 = '_') && noDoubleB (c2 :: rest)

/-- A list of characters is in normal-key form: only `[a-z0-9_]`
characters, no run of two underscores, and no underscore at either
end. -/
def normalForm (l : List Char) : Bool :=
  l.all isOutChar && noDoubleB l && (l.head? != some '_') &&
    (l.getLast? != some '_')

/-! ### Normalizer lemmas -/

theorem toNat_ofNat_valid {n : Nat} (h : Nat.isValidChar n) :
    (Char.ofNat n).toNat = n := by
  have h2 : n < 1114112 := by
    rcases h with h | h
    · omega
    · omega
  simp [Char.ofNat, h, Char.ofNatAux, Char.toNat, UInt32.toNat, UInt32.ofNatCore]

theorem charToNat_inj {a b : Char} (h : a.toNat = b.toNat) : a = b := by
  have := congrArg Char.ofNat h
  simpa [Char.ofNat_toNat] using this

/-- Character classes after the `[^a-zA-Z0-9] → _` substitution. -/
def isMidChar (c : Char) : Bool :=
  isAlnumAscii c || c = '_'

theorem underscoreNonAlnum_mid (c : Char) :
    isMidChar (underscoreNonAlnum c) = true := by
  unfold underscoreNonAlnum isMidChar
  by_cases h : isAlnumAscii c = true
  · simp [h]
  · simp [h]

theorem collapse_head : ∀ (x : Char) (xs : List Char),
    ∃ t, collapseUnderscores (x :: xs) = x :: t
  | _, [] => ⟨[], rfl⟩
  | x, y :: r => by
    by_cases h : (x = '_' && y = '_') = true
    · obtain ⟨t, ht⟩ := collapse_head y r
      refine ⟨t, ?_⟩
      have hx : x = '_' := by simpa using And.left (by simpa using h)
      have hy : y = '_' := by simpa using And.right (by simpa using h)
      rw [collapseUnderscores, if_pos h, ht, hx, hy]
    · exact ⟨collapseUnderscores (y :: r), by rw [collapseUnderscores, if_neg h]⟩

theorem collapse_mem {c : Char} :
    ∀ {l : List Char}, c ∈ collapseUnderscores l → c ∈ l
  | [], h => by simp [collapseUnderscores] at h
  | [x], h => by simpa [collapseUnderscores] using h
  | x :: y :: r, h => by
    rw [collapseUnderscores] at h
    split at h
    · exact List.mem_cons_of_mem _ (collapse_mem h)
    · rcases List.mem_cons.1 h with h | h
      · exact h ▸ List.mem_cons_self _ _
      · exact List.mem_cons_of_mem _ (collapse_mem h)

theorem collapse_noDouble : ∀ l : List Char, noDoubleB (collapseUnderscores l) = true
  | [] => rfl
  | [_] => rfl
  | x :: y :: r => by
    rw [collapseUnderscores]
    split
    · exact collapse_noDouble (y :: r)
    · rename_i hneg
      obtain ⟨t, ht⟩ := collapse_head y r
      rw [ht]
      have hnd := collapse_noDouble (y :: r)
      rw [ht] at hnd
      have hfalse : (x = '_' && y = '_') = false := by
        cases h' : (x = '_' && y = '_')
        · rfl
        · exact absurd h' hneg
      simp only [noDoubleB, hnd, hfalse, Bool.and_true, Bool.not_false]

theorem noDoubleB_cons {c : Char} {l : List Char} (h : noDoubleB (c :: l) = true) :
    noDoubleB l = true := by
  cases l with
  | nil => rfl
  | cons d r => exact (Bool.and_elim_right h)

/-- The adjacency relation behind `noDoubleB`. -/
def undR (a b : Char) : Prop := ¬(a = '_' ∧ b = '_')

theorem noDoubleB_iff_chain : ∀ l : List Char,
    noDoubleB l = true ↔ List.Chain' undR l
  | [] => by simp [noDoubleB]
  | [c] => by simp [noDoubleB]
  | c1 :: c2 :: r => by
    rw [show noDoubleB (c1 :: c2 :: r) =
        (!(c1 = '_' && c2 = '_') && noDoubleB (c2 :: r)) from rfl]
    rw [Bool.and_eq_true, noDoubleB_iff_chain (c2 :: r), List.chain'_cons]
    constructor
    · rintro ⟨h1, h2⟩
      refine ⟨?_, h2⟩
      simp only [Bool.not_eq_true', Bool.and_eq_false_iff, decide_eq_false_iff_not] at h1
      intro hc
      rcases h1 with h1 | h1
      · exact h1 hc.1
      · exact h1 hc.2
    · rintro ⟨h1, h2⟩
      refine ⟨?_, h2⟩
      have : (c1 = '_' && c2 = '_') = false := by
        cases hb : (c1 = '_' && c2 = '_')
        · rfl
        · rw [Bool.and_eq_true] at hb
          exact absurd ⟨by simpa using hb.1, by simpa using hb.2⟩ h1
      simp [this]

theorem noDoubleB_reverse (l : List Char) (h : noDoubleB l = true) :
    noDoubleB l.reverse = true := by
  rw [noDoubleB_iff_chain] at h ⊢
  rw [List.chain'_reverse]
  exact h.imp fun a b hab => fun hc => hab ⟨hc.2, hc.1⟩

theorem noDoubleB_dropWhile (p : Char → Bool) (l : List Char)
    (h : noDoubleB l = true) : noDoubleB (l.dropWhile p) = true := by
  rw [noDoubleB_iff_chain] at h ⊢
  exact h.suffix (List.dropWhile_suffix p)

theorem head_dropWhile_ne (p : Char → Bool) (l : List Char) {c : Char}
    (h : (l.dropWhile p).head? = some c) : p c = false := by
  have hh := List.head?_dropWhile_not p l
  rw [h] at hh
  exact hh

theorem prefix_head_some {l₁ l₂ : List Char} (h : l₁ <+: l₂) {c : Char}
    (hc : l₁.head? = some c) : l₂.head? = some c := by
  obtain ⟨t, rfl⟩ := h
  cases l₁ with
  | nil => simp at hc
  | cons a r => simpa using hc

theorem dropTrailing_prefixOf (l : List Char) :
    dropTrailingUnderscores l <+: l := by
  have h := List.dropWhile_suffix (l := l.reverse) (fun c => c = '_')
  have h2 := List.reverse_prefix.mpr h
  rwa [List.reverse_reverse] at h2

theorem mem_dropTrailing {c : Char} {l : List Char}
    (h : c ∈ dropTrailingUnderscores l) : c ∈ l :=
  (dropTrailing_prefixOf l).sublist.mem h

theorem mem_stripUnderscores {c : Char} {l : List Char}
    (h : c ∈ stripUnderscores l) : c ∈ l :=
  (List.dropWhile_suffix _).sublist.mem (mem_dropTrailing h)

theorem noDoubleB_stripUnderscores (l : List Char) (h : noDoubleB l = true) :
    noDoubleB (stripUnderscores l) = true := by
  unfold stripUnderscores dropTrailingUnderscores
  exact noDoubleB_reverse _ (noDoubleB_dropWhile _ _
    (noDoubleB_reverse _ (noDoubleB_dropWhile _ _ h)))

theorem strip_head_ne {l : List Char} {c : Char}
    (h : (stripUnderscores l).head? = some c) : c ≠ '_' := by
  have hpre : (stripUnderscores l).head? = (l.dropWhile (fun x => x = '_')).head? :=
    (prefix_head_some (dropTrailing_prefixOf _) h).symm ▸ h ▸ rfl
  have := head_dropWhile_ne (fun x => x = '_') l
      (hpre ▸ h)
  simpa using this

theorem strip_last_ne {l : List Char} {c : Char}
    (h : (stripUnderscores l).getLast? = some c) : c ≠ '_' := by
  unfold stripUnderscores dropTrailingUnderscores at h
  rw [List.getLast?_reverse] at h
  have := head_dropWhile_ne (fun x => x = '_') _ h
  simpa using this

theorem eq_underscore_iff_toNat (c : Char) : c = '_' ↔ c.toNat = 95 := by
  constructor
  · rintro rfl
    rfl
  · intro h
    exact charToNat_inj (by simpa using h)

theorem isOutChar_toLower {c : Char} (h : isMidChar c = true) :
    isOutChar (Char.toLower c) = true := by
  have hn : (65 ≤ c.toNat ∧ c.toNat ≤ 90) ∨ (97 ≤ c.toNat ∧ c.toNat ≤ 122) ∨
      (48 ≤ c.toNat ∧ c.toNat ≤ 57) ∨ c.toNat = 95 := by
    simp only [isMidChar, isAlnumAscii, Bool.or_eq_true, Bool.and_eq_true,
      decide_eq_true_eq, eq_underscore_iff_toNat] at h
    tauto
  unfold Char.toLower
  by_cases hcase : c.toNat ≥ 65 ∧ c.toNat ≤ 90
  · rw [if_pos hcase]
    have hv : Nat.isValidChar (c.toNat + 32) := Or.inl (by omega)
    simp only [isOutChar, toNat_ofNat_valid hv, Bool.or_eq_true, Bool.and_eq_true,
      decide_eq_true_eq]
    omega
  · rw [if_neg hcase]
    simp only [isOutChar, Bool.or_eq_true, Bool.and_eq_true, decide_eq_true_eq]
    omega

theorem toLower_eq_underscore {c : Char} : Char.toLower c = '_' ↔ c = '_' := by
  unfold Char.toLower
  by_cases hcase : c.toNat ≥ 65 ∧ c.toNat ≤ 90
  · rw [if_pos hcase]
    constructor
    · intro h
      have h2 := congrArg Char.toNat h
      rw [toNat_ofNat_valid (Or.inl (by omega))] at h2
      have h95 : ('_').toNat = 95 := rfl
      rw [h95] at h2
      exact absurd h2 (by omega)
    · rintro rfl
      exact absurd hcase (by decide)
  · rw [if_neg hcase]

theorem noDoubleB_map_toLower :
    ∀ l : List Char, noDoubleB l = true → noDoubleB (l.map Char.toLower) = true
  | [], _ => rfl
  | [_], _ => rfl
  | c1 :: c2 :: r, h => by
    rw [show noDoubleB (c1 :: c2 :: r) =
        (!(c1 = '_' && c2 = '_') && noDoubleB (c2 :: r)) from rfl,
      Bool.and_eq_true] at h
    have hmap := noDoubleB_map_toLower (c2 :: r) h.2
    simp only [List.map_cons] at hmap ⊢
    rw [show noDoubleB (Char.toLower c1 :: Char.toLower c2 :: r.map Char.toLower) =
        (!(Char.toLower c1 = '_' && Char.toLower c2 = '_') &&
          noDoubleB (Char.toLower c2 :: r.map Char.toLower)) from rfl,
      Bool.and_eq_true]
    refine ⟨?_, hmap⟩
    have e1 : decide (Char.toLower c1 = '_') = decide (c1 = '_') :=
      decide_eq_decide.mpr toLower_eq_underscore
    have e2 : decide (Char.toLower c2 = '_') = decide (c2 = '_') :=
      decide_eq_decide.mpr toLower_eq_underscore
    rw [show ((Char.toLower c1 = '_' && Char.toLower c2 = '_') : Bool) =
        (decide (Char.toLower c1 = '_') && decide (Char.toLower c2 = '_')) from rfl,
      e1, e2]
    exact h.1

/-- Every output of `normalizeKey` is in normal-key form. -/
theorem normalForm_normalizeKey (s : String) :
    normalForm (normalizeKey s).data = true := by
  have hmState : ∀ c ∈ ((s.data.flatMap stripMarks).map underscoreNonAlnum),
      isMidChar c = true := by
    intro c hc
    obtain ⟨d, _, rfl⟩ := List.mem_map.1 hc
    exact underscoreNonAlnum_mid d
  set m := ((s.data.flatMap stripMarks).map underscoreNonAlnum) with hm
  have hcolMid : ∀ c ∈ collapseUnderscores m, isMidChar c = true :=
    fun c hc => hmState c (collapse_mem hc)
  have hcolND : noDoubleB (collapseUnderscores m) = true := collapse_noDouble m
  have hstMid : ∀ c ∈ stripUnderscores (collapseUnderscores m), isMidChar c = true :=
    fun c hc => hcolMid c (mem_stripUnderscores hc)
  have hstND : noDoubleB (stripUnderscores (collapseUnderscores m)) = true :=
    noDoubleB_stripUnderscores _ hcolND
  have hdata : (normalizeKey s).data
      = (stripUnderscores (collapseUnderscores m)).map Char.toLower := rfl
  rw [normalForm, hdata, Bool.and_eq_true, Bool.and_eq_true, Bool.and_eq_true]
  refine ⟨⟨⟨?_, ?_⟩, ?_⟩, ?_⟩
  · rw [List.all_eq_true]
    intro c hc
    obtain ⟨d, hd, rfl⟩ := List.mem_map.1 hc
    exact isOutChar_toLower (hstMid d hd)
  · exact noDoubleB_map_toLower _ hstND
  · rw [List.head?_map]
    cases hh : (stripUnderscores (collapseUnderscores m)).head? with
    | none => rfl
    | some c =>
      have hne : c ≠ '_' := strip_head_ne hh
      simp only [Option.map_some']
      simpa using fun he => hne (toLower_eq_underscore.1 he)
  · rw [List.getLast?_map]
    cases hh : (stripUnderscores (collapseUnderscores m)).getLast? with
    | none => rfl
    | some c =>
      have hne : c ≠ '_' := strip_last_ne hh
      simp only [Option.map_some']
      simpa using fun he => hne (toLower_eq_underscore.1 he)

theorem lookup_none_of_keys_ne {β : Type} (t : List (Char × β)) (c : Char)
    (h : ∀ p ∈ t, p.1 ≠ c) : t.lookup c = none := by
  induction t with
  | nil => rfl
  | cons p t ih =>
    have hne : (c == p.1) = false :=
      beq_eq_false_iff_ne.mpr fun he => h p (List.mem_cons_self _ _) he.symm
    obtain ⟨k, b⟩ := p
    simp only [List.lookup, hne]
    exact ih fun q hq => h q (List.mem_cons_of_mem _ hq)

theorem stripTable_keys_not_out : ∀ p ∈ stripTable, isOutChar p.1 = false := by
  decide

theorem stripMarks_out {c : Char} (h : isOutChar c = true) : stripMarks c = [c] := by
  unfold stripMarks
  rw [lookup_none_of_keys_ne]
  · rfl
  · intro p hp he
    have hf := stripTable_keys_not_out p hp
    rw [he, h] at hf
    simp at hf

theorem flatMap_id_of_mem {f : Char → List Char} :
    ∀ l : List Char, (∀ c ∈ l, f c = [c]) → l.flatMap f = l
  | [], _ => rfl
  | c :: r, h => by
    rw [List.flatMap_cons, h c (List.mem_cons_self _ _),
      flatMap_id_of_mem r fun d hd => h d (List.mem_cons_of_mem _ hd)]
    rfl

theorem map_id_of_mem {f : Char → Char} :
    ∀ l : List Char, (∀ c ∈ l, f c = c) → l.map f = l
  | [], _ => rfl
  | c :: r, h => by
    rw [List.map_cons, h c (List.mem_cons_self _ _),
      map_id_of_mem r fun d hd => h d (List.mem_cons_of_mem _ hd)]

theorem underscoreNonAlnum_out {c : Char} (h : isOutChar c = true) :
    underscoreNonAlnum c = c := by
  unfold underscoreNonAlnum
  simp only [isOutChar, Bool.or_eq_true, Bool.and_eq_true, decide_eq_true_eq] at h
  rcases h with (h | h) | h
  · have ha : isAlnumAscii c = true := by
      simp only [isAlnumAscii, Bool.or_eq_true, Bool.and_eq_true, decide_eq_true_eq]
      omega
    rw [ha]
    rfl
  · have ha : isAlnumAscii c = true := by
      simp only [isAlnumAscii, Bool.or_eq_true, Bool.and_eq_true, decide_eq_true_eq]
      omega
    rw [ha]
    rfl
  · have ha : isAlnumAscii c = false := by
      have hnot : ¬ (isAlnumAscii c = true) := by
        simp only [isAlnumAscii, Bool.or_eq_true, Bool.and_eq_true, decide_eq_true_eq]
        omega
      cases hb : isAlnumAscii c
      · rfl
      · exact absurd hb hnot
    rw [ha]
    exact ((eq_underscore_iff_toNat c).mpr h).symm

theorem collapse_id : ∀ l : List Char, noDoubleB l = true → collapseUnderscores l = l
  | [], _ => rfl
  | [_], _ => rfl
  | c1 :: c2 :: r, h => by
    rw [show noDoubleB (c1 :: c2 :: r) =
        (!(c1 = '_' && c2 = '_') && noDoubleB (c2 :: r)) from rfl,
      Bool.and_eq_true] at h
    have hfalse : (c1 = '_' && c2 = '_') = false := by
      have h1 := h.1
      cases hb : (c1 = '_' && c2 = '_')
      · rfl
      · rw [hb] at h1
        exact absurd h1 (by simp)
    rw [collapseUnderscores, if_neg (by simp [hfalse]), collapse_id (c2 :: r) h.2]

theorem dropWhile_id_of_head {p : Char → Bool} :
    ∀ {l : List Char}, (∀ c, l.head? = some c → p c = false) → l.dropWhile p = l
  | [], _ => rfl
  | c :: r, h => by
    rw [List.dropWhile_cons_of_neg]
    simp [h c rfl]

theorem strip_id (l : List Char)
    (h1 : ∀ c, l.head? = some c → c ≠ '_')
    (h2 : ∀ c, l.getLast? = some c → c ≠ '_') :
    stripUnderscores l = l := by
  unfold stripUnderscores dropTrailingUnderscores
  rw [dropWhile_id_of_head (l := l) (p := fun x => x = '_')
      (fun c hc => by simpa using h1 c hc)]
  rw [dropWhile_id_of_head (l := l.reverse) (p := fun x => x = '_')
      (fun c hc => by
        rw [List.head?_reverse] at hc
        simpa using h2 c hc)]
  exact List.reverse_reverse l

theorem toLower_out {c : Char} (h : isOutChar c = true) : Char.toLower c = c := by
  unfold Char.toLower
  simp only [isOutChar, Bool.or_eq_true, Bool.and_eq_true, decide_eq_true_eq] at h
  rw [if_neg (by omega)]

/-- `normalize_key` is the identity on normal-form keys. -/
theorem normalizeKey_of_normalForm {l : List Char} (h : normalForm l = true) :
    normalizeKey ⟨l⟩ = ⟨l⟩ := by
  rw [normalForm, Bool.and_eq_true, Bool.and_eq_true, Bool.and_eq_true] at h
  obtain ⟨⟨⟨hall, hnd⟩, hhead⟩, hlast⟩ := h
  rw [List.all_eq_true] at hall
  have h1 : ∀ c, l.head? = some c → c ≠ '_' := by
    intro c hc he
    rw [he] at hc
    rw [hc] at hhead
    simp at hhead
  have h2 : ∀ c, l.getLast? = some c → c ≠ '_' := by
    intro c hc he
    rw [he] at hc
    rw [hc] at hlast
    simp at hlast
  show String.mk _ = _
  rw [show (String.mk l).data = l from rfl]
  rw [flatMap_id_of_mem l fun c hc => stripMarks_out (hall c hc)]
  rw [map_id_of_mem l fun c hc => underscoreNonAlnum_out (hall c hc)]
  rw [collapse_id l hnd]
  rw [strip_id l h1 h2]
  rw [map_id_of_mem l fun c hc => toLower_out (hall c hc)]

/-- C9: for every input string, the output of `normalize_key` contains only
characters in `[a-z0-9_]`, has no leading or trailing underscore, and has no
two consecutive underscores (`normalForm`); the empty input yields the empty
output. -/
theorem normalize_key_shape :
    normalizeKey "" = "" ∧
      ∀ s : String, normalForm (normalizeKey s).data = true :=
  ⟨rfl, normalForm_normalizeKey⟩

/-- C10: `normalize_key` is idempotent — applying it to an already
normalized key leaves the key unchanged. -/
theorem normalize_key_idempotent (s : String) :
    normalizeKey (normalizeKey s) = normalizeKey s := by
  have h := normalForm_normalizeKey s
  have h2 : normalizeKey ⟨(normalizeKey s).data⟩ = ⟨(normalizeKey s).data⟩ :=
    normalizeKey_of_normalForm h
  exact h2

/-! ## Row values and dictionaries

An extracted row is a Python dict from normalized header keys to cell
values.  The values this program stores in a row are strings, `None`,
and lists of strings (the UF lists of the static metadata).  A dict is
modelled as an association list with the first binding of a key
authoritative; `dictSet` mirrors Python assignment (update in place, or
append a new binding), so rows built by the extractor have unique keys. -/

inductive Value where
  | str : String → Value
  | null : Value
  | vlist : List String → Value
deriving DecidableEq, Repr

abbrev Row := List (String × Value)

def dictGet (d : Row) (k : String) : Option Value :=
  (d.find? (fun p => p.1 = k)).map (·.2)

def dictSet (d : Row) (k : String) (v : Value) : Row :=
  if d.any (fun p => p.1 = k) then
    d.map (fun p => if p.1 = k then (k, v) else p)
  else d ++ [(k, v)]

/-- Python `==` on dicts: same keys and the same value at each key
(insertion order is irrelevant).  On unique-keyed association lists this
is exactly dict equality. -/
def dictEqB (r1 r2 : Row) : Bool :=
  (r1.all fun p => dictGet r2 p.1 = dictGet r1 p.1) &&
    (r2.all fun p => dictGet r1 p.1 = dictGet r2 p.1)

/-- `NFEStatusMonitor.status_changed` (lines 302-305): `prev_status !=
new_status` on the JSON-decoded previous row and the incoming row.
JSON round-tripping (`json.loads(json.dumps(row))`) is the identity on
the value types above, so the stored row is compared directly. -/
def status_changed (prev_status new_status : Row) : Bool :=
  !(dictEqB prev_status new_status)

/-! ## The history store (SCD2 table)

One row of the `disponibilidade` table.  `status_json` holds the
JSON-serialized extracted row; serialization is injective and
round-trips, so the model stores the row itself.  `is_current` is the
`INTEGER` column holding 0 or 1, modelled as `Bool`.  Timestamps are
UTC instants in seconds. -/

structure HistoryRecord where
  id : Nat
  autorizador : Value
  status_json : Row
  valid_from : Int
  valid_to : Option Int
  is_current : Bool
deriving DecidableEq, Repr

/-- The table plus the state of its `SERIAL` id sequence. -/
structure Store where
  records : List HistoryRecord
  nextId : Nat
deriving DecidableEq, Repr

def emptyStore : Store := ⟨[], 0⟩

/-- The rows matching `WHERE autorizador = a AND is_current = 1`. -/
def currents (s : Store) (a : Value) : List HistoryRecord :=
  s.records.filter fun r => r.autorizador = a && r.is_current

/-- `ORDER BY valid_from DESC LIMIT 1`: a row with maximal `valid_from`
(ties broken by row order, which SQL leaves unspecified; the store
invariant makes ties impossible). -/
def pickLatest : List HistoryRecord → Option HistoryRecord
  | [] => none
  | r :: rs =>
    match pickLatest rs with
    | none => some r
    | some b => if b.valid_from > r.valid_from then some b else some r

/-- The `SELECT id, status_json, valid_from ... WHERE autorizador=%s AND
is_current=1 ORDER BY valid_from DESC LIMIT 1` query of `persist`. -/
def findCurrent (s : Store) (a : Value) : Option HistoryRecord :=
  pickLatest (currents s a)

/-- `UPDATE ... SET valid_to=%s, is_current=0 WHERE id=%s`. -/
def closeRecord (s : Store) (rid : Nat) (ts : Int) : Store :=
  { s with records := s.records.map fun r =>
      if r.id = rid then { r with valid_to := some ts, is_current := false } else r }

/-- The freshly inserted current row. -/
def newRecord (s : Store) (a : Value) (row : Row) (ts : Int) : HistoryRecord :=
  { id := s.nextId, autorizador := a, status_json := row,
    valid_from := ts, valid_to := none, is_current := true }

/-- `INSERT INTO ... VALUES (%s, %s, %s, NULL, 1)` with a fresh serial id. -/
def insertRecord (s : Store) (a : Value) (row : Row) (ts : Int) : Store :=
  { records := s.records ++ [newRecord s a row ts], nextId := s.nextId + 1 }

/-- Python truthiness of a row value (`if not autorizador: continue`). -/
def Value.isTruthy : Value → Bool
  | .str s => s ≠ ""
  | .null => false
  | .vlist l => l ≠ []

/-- `row.get("autorizador")` followed by the falsiness check of lines
322-325. -/
def truthyAutorizador (row : Row) : Option Value :=
  match dictGet row "autorizador" with
  | some v => if v.isTruthy then some v else none
  | none => none

/-- The body of the `for row in data.statuses` loop of `persist`
(lines 321-355) for one row: look up the current record, compare, and
close-then-insert when the status changed. -/
def persistStep (ts : Int) (s : Store) (row : Row) : Store :=
  match truthyAutorizador row with
  | none => s
  | some a =>
    let current := findCurrent s a
    let changed : Bool :=
      match current with
      | some c => status_changed c.status_json row
      | none => true
    if changed then
      let s1 := match current with
        | some c => closeRecord s c.id ts
        | none => s
      insertRecord s1 a row ts
    else s

/-- The `DELETE` predicate of `apply_retention_policy` (line 378):
`valid_to IS NOT NULL AND valid_to < cutoff`. -/
def retentionDeletes (cutoff : Int) (r : HistoryRecord) : Bool :=
  match r.valid_to with
  | none => false
  | some t => t < cutoff

/-- `apply_retention_policy` (lines 365-387): delete every record whose
`valid_to` is set and older than `now - timedelta(days=max_days)`.
`now` is the instant read from the configured-timezone clock. -/
def applyRetentionPolicy (now maxDays : Int) (s : Store) : Store :=
  { s with records :=
      s.records.filter fun r => !(retentionDeletes (now - maxDays * 86400) r) }

/-- `NFEResult` (lines 71-77).  `checked_at` holds the instant parsed
from the ISO-8601 string, already normalized to UTC as lines 316-319 do;
`none` covers an absent (or empty, hence falsy) `checked_at`. -/
structure NFEResult where
  checked_at : Option Int
  statuses : List Row
  success : Bool
  error_message : Option String
deriving DecidableEq, Repr

/-- `NFEStatusMonitor.persist` (lines 307-363): refuse invalid data,
run the SCD2 loop over the snapshot rows, commit, then apply retention
on the same connection.  `now` is the clock instant the retention step
reads; `maxDays` is `Config.RETENTION_MAX_DAYS`.  Returns the new store
and the boolean result. -/
def persist (now maxDays : Int) (s : Store) (data : NFEResult) : Store × Bool :=
  match data.success, data.checked_at with
  | true, some ts =>
    let s1 := data.statuses.foldl (persistStep ts) s
    (applyRetentionPolicy now maxDays s1, true)
  | _, _ => (s, false)

/-- Fault-injection extension of `persist`, mirroring its `try/except`
structure.  `bodyRaises` injects an exception inside the transaction
body before `conn.commit()` (line 356): the connection is closed without
committing, the implicit rollback restores the store, the outer
`except` logs and returns `False`.  `retRaises` injects an exception
inside `apply_retention_policy`'s own `try`: that handler swallows it
(lines 383-384), the uncommitted `DELETE` is rolled back, and `persist`
still returns `True`.  With both flags false this is exactly `persist`. -/
def persistExc (bodyRaises retRaises : Bool) (now maxDays : Int)
    (s : Store) (data : NFEResult) : Store × Bool :=
  match data.success, data.checked_at with
  | true, some ts =>
    if bodyRaises then (s, false)
    else
      let s1 := data.statuses.foldl (persistStep ts) s
      if retRaises then (s1, true)
      else (applyRetentionPolicy now maxDays s1, true)
  | _, _ => (s, false)

/-- The JSON document `save_json` writes (lines 400-409). -/
structure ExportFile where
  checked_at : Option Int
  statuses : List Row
  total_records : Nat
  generated_at : Int
  version : String
deriving DecidableEq, Repr

/-- `NFEStatusMonitor.save_json` (lines 389-416): refuse when
`data.success` is falsy, otherwise atomically replace the export file.
The file state is `none` before the first export.  `now` is the
generation instant. -/
def save_json (now : Int) (data : NFEResult) (file : Option ExportFile) :
    Option ExportFile × Bool :=
  if data.success then
    (some { checked_at := data.checked_at, statuses := data.statuses,
            total_records := data.statuses.length, generated_at := now,
            version := "2.0" }, true)
  else (file, false)

/-! ## Retention (C6) and refusal of invalid snapshots (C4, C5) -/

/-- C6: `apply_retention_policy` keeps exactly the records on which the
delete predicate (`valid_to IS NOT NULL AND valid_to < now - max_age_days`)
is false — so it deletes exactly the closed records older than the cutoff —
and the delete predicate is false on every record whose `valid_to` is null,
so a current record is never deleted regardless of its age. -/
theorem retention_policy_exact (now maxDays : Int) (s : Store) (r : HistoryRecord) :
    (r ∈ (applyRetentionPolicy now maxDays s).records ↔
      r ∈ s.records ∧ retentionDeletes (now - maxDays * 86400) r = false) ∧
    retentionDeletes (now - maxDays * 86400) { r with valid_to := none } = false := by
  constructor
  · rw [applyRetentionPolicy]
    simp only [List.mem_filter, Bool.not_eq_true']
  · rfl

/-- Concrete snapshots used by witnesses and counterexamples. -/
def snapNoTs : NFEResult :=
  { checked_at := none, statuses := [], success := true, error_message := none }

def snapFailed : NFEResult :=
  { checked_at := none, statuses := [], success := false, error_message := none }

def snapEmptyOk : NFEResult :=
  { checked_at := some 0, statuses := [], success := true, error_message := none }

/-- C4 counterexample: a snapshot with `success = true` but absent
`checked_at` is accepted by `save_json`, which writes the file and
returns true — the claim says it returns false without writing. -/
theorem save_json_accepts_absent_checked_at :
    (save_json 0 snapNoTs none).2 = true ∧
    (save_json 0 snapNoTs none).1 ≠ none := by
  constructor
  · rfl
  · intro h
    simp [save_json, snapNoTs] at h

/-- C4 amended: a snapshot with `success = false` or absent `checked_at`
is refused by `persist` (false, store untouched); a snapshot with
`success = false` is refused by `save_json` (false, file untouched) —
`save_json` checks only the success flag, not `checked_at`. -/
theorem persist_save_json_refuse (now maxDays : Int) (s : Store)
    (file : Option ExportFile) (data : NFEResult)
    (h : data.success = false ∨ data.checked_at = none) :
    persist now maxDays s data = (s, false) ∧
    save_json now { data with success := false } file = (file, false) := by
  refine ⟨?_, by simp [save_json]⟩
  rcases h with h | h
  · simp [persist, h]
  · cases hs : data.success
    · simp [persist, h, hs]
    · simp [persist, h, hs]

theorem persist_save_json_refuse_witness :
    (snapNoTs.success = false ∨ snapNoTs.checked_at = none) ∧
    (persist 0 30 emptyStore snapNoTs = (emptyStore, false) ∧
     save_json 0 { snapNoTs with success := false } none = (none, false)) :=
  ⟨Or.inr rfl, persist_save_json_refuse 0 30 emptyStore none snapNoTs (Or.inr rfl)⟩

/-- C5 counterexample: an exception injected into the retention step is
swallowed inside `apply_retention_policy` (its own `except` handler), so
`persist` still returns true — the claim says any exception during
retention makes persist return false. -/
theorem persist_true_despite_retention_exception :
    (persistExc false true 0 30 emptyStore snapEmptyOk).2 = true := rfl

/-- C5 amended: for a valid snapshot, `persist` returns true iff the
transaction body (through `conn.commit()`) raises no exception; a body
exception rolls the transaction back (store unchanged) and returns
false; an exception inside the retention step is caught by
`apply_retention_policy` itself and changes neither the return value nor
the committed data.  Without injected faults `persistExc` is `persist`. -/
theorem persist_exc_spec (br rr : Bool) (now maxDays : Int) (s : Store)
    (data : NFEResult) (hs : data.success = true)
    (ht : data.checked_at.isSome = true) :
    ((persistExc br rr now maxDays s data).2 = true ↔ br = false) ∧
    persistExc true rr now maxDays s data = (s, false) ∧
    persistExc false false now maxDays s data = persist now maxDays s data := by
  obtain ⟨ts, hts⟩ := Option.isSome_iff_exists.mp ht
  refine ⟨?_, ?_, ?_⟩
  · cases br
    · simp [persistExc, hs, hts]
      cases rr <;> simp
    · simp [persistExc, hs, hts]
  · simp [persistExc, hs, hts]
  · simp [persistExc, persist, hs, hts]

/-! ## Store invariants (C1) -/

/-- Every current record has a null `valid_to`. -/
def currentOpen (s : Store) : Prop :=
  ∀ r ∈ s.records, r.is_current = true → r.valid_to = none

/-- The SCD2 invariant of the spec: per `autorizador` at most one current
record, and a current record is open (`valid_to` null). -/
def Inv (s : Store) : Prop :=
  (∀ a : Value, (currents s a).length ≤ 1) ∧ currentOpen s

/-- Bookkeeping invariant of the `SERIAL` id column: ids are below the
sequence value and pairwise distinct. -/
def IdsOk (s : Store) : Prop :=
  (∀ r ∈ s.records, r.id < s.nextId) ∧ (s.records.map (·.id)).Nodup

def WF (s : Store) : Prop := Inv s ∧ IdsOk s

theorem wf_empty : WF emptyStore := by
  refine ⟨⟨fun a => ?_, fun r hr => ?_⟩, fun r hr => ?_, ?_⟩ <;>
    simp [currents, emptyStore] at *

theorem pickLatest_cons_none {r : HistoryRecord} {rs : List HistoryRecord}
    (hp : pickLatest rs = none) : pickLatest (r :: rs) = some r := by
  rw [pickLatest, hp]

theorem pickLatest_cons_some {r b : HistoryRecord} {rs : List HistoryRecord}
    (hp : pickLatest rs = some b) :
    pickLatest (r :: rs) =
      if b.valid_from > r.valid_from then some b else some r := by
  rw [pickLatest, hp]

theorem pickLatest_mem : ∀ {l : List HistoryRecord} {c : HistoryRecord},
    pickLatest l = some c → c ∈ l
  | [], c, h => by simp [pickLatest] at h
  | r :: rs, c, h => by
    cases hp : pickLatest rs with
    | none =>
      rw [pickLatest_cons_none hp] at h
      injection h with h2
      exact h2 ▸ List.mem_cons_self _ _
    | some b =>
      rw [pickLatest_cons_some hp] at h
      by_cases hv : b.valid_from > r.valid_from
      · rw [if_pos hv] at h
        injection h with h2
        exact List.mem_cons_of_mem _ (h2 ▸ pickLatest_mem hp)
      · rw [if_neg hv] at h
        injection h with h2
        exact h2 ▸ List.mem_cons_self _ _

theorem pickLatest_eq_none : ∀ {l : List HistoryRecord},
    pickLatest l = none → l = []
  | [], _ => rfl
  | r :: rs, h => by
    cases hp : pickLatest rs with
    | none =>
      rw [pickLatest_cons_none hp] at h
      exact absurd h (by simp)
    | some b =>
      rw [pickLatest_cons_some hp] at h
      by_cases hv : b.valid_from > r.valid_from
      · rw [if_pos hv] at h
        exact absurd h (by simp)
      · rw [if_neg hv] at h
        exact absurd h (by simp)

theorem pickLatest_singleton (c : HistoryRecord) : pickLatest [c] = some c := rfl

theorem mem_length_le_one {α : Type} {l : List α} {c : α}
    (hc : c ∈ l) (h : l.length ≤ 1) : l = [c] := by
  cases l with
  | nil => simp at hc
  | cons a t =>
    cases t with
    | nil =>
      obtain rfl : c = a := by simpa using hc
      rfl
    | cons b u => simp at h

theorem filter_map_length_le {α : Type} (f : α → α) (p : α → Bool) :
    ∀ l : List α, (∀ r ∈ l, p (f r) = true → p r = true) →
      ((l.map f).filter p).length ≤ (l.filter p).length
  | [], _ => by simp
  | r :: t, h => by
    have ih := filter_map_length_le f p t
      (fun x hx => h x (List.mem_cons_of_mem _ hx))
    simp only [List.map_cons, List.filter_cons]
    by_cases hp : p (f r) = true
    · rw [if_pos hp, if_pos (h r (List.mem_cons_self _ _) hp)]
      simpa using ih
    · rw [if_neg hp]
      by_cases hq : p r = true
      · rw [if_pos hq]
        exact le_trans ih (by simp)
      · rw [if_neg hq]
        exact ih

theorem filter_map_eq_filter {α : Type} (f : α → α) (p : α → Bool) :
    ∀ l : List α,
      (∀ r ∈ l, p (f r) = p r ∧ (p r = true → f r = r)) →
      (l.map f).filter p = l.filter p
  | [], _ => rfl
  | r :: t, h => by
    have ih := filter_map_eq_filter f p t
      (fun x hx => h x (List.mem_cons_of_mem _ hx))
    have hr := h r (List.mem_cons_self _ _)
    simp only [List.map_cons, List.filter_cons, hr.1, ih]
    by_cases hq : p r = true
    · rw [if_pos hq, if_pos hq, hr.2 hq]
    · rw [if_neg hq, if_neg hq]

/-- The current-row predicate of `currents`. -/
def curPred (a : Value) (r : HistoryRecord) : Bool :=
  r.autorizador = a && r.is_current

theorem currents_def (s : Store) (a : Value) :
    currents s a = s.records.filter (curPred a) := rfl

/-- The record-closing function of `closeRecord`. -/
def closeFn (rid : Nat) (ts : Int) (r : HistoryRecord) : HistoryRecord :=
  if r.id = rid then { r with valid_to := some ts, is_current := false } else r

theorem closeRecord_records (s : Store) (rid : Nat) (ts : Int) :
    (closeRecord s rid ts).records = s.records.map (closeFn rid ts) := rfl

theorem curPred_closeFn {a : Value} {rid : Nat} {ts : Int} {r : HistoryRecord}
    (h : curPred a (closeFn rid ts r) = true) : curPred a r = true ∧ r.id ≠ rid := by
  unfold closeFn at h
  by_cases hid : r.id = rid
  · rw [if_pos hid] at h
    simp [curPred] at h
  · rw [if_neg hid] at h
    exact ⟨h, hid⟩

theorem currents_close_le (s : Store) (rid : Nat) (ts : Int) (a : Value) :
    (currents (closeRecord s rid ts) a).length ≤ (currents s a).length := by
  rw [currents_def, currents_def, closeRecord_records]
  exact filter_map_length_le _ _ _ fun r _ h => (curPred_closeFn h).1

theorem currents_insert (s : Store) (b : Value) (row : Row) (ts : Int) (a : Value) :
    currents (insertRecord s b row ts) a =
      currents s a ++ if b = a then [newRecord s b row ts] else [] := by
  rw [currents_def, currents_def]
  show List.filter _ (s.records ++ [newRecord s b row ts]) = _
  rw [List.filter_append]
  congr 1
  by_cases hba : b = a
  · simp [curPred, newRecord, hba]
  · simp [curPred, newRecord, hba]

/-! ### Case equations for `persistStep` -/

theorem persistStep_eq_skip {ts : Int} {s : Store} {row : Row}
    (h : truthyAutorizador row = none) : persistStep ts s row = s := by
  unfold persistStep
  rw [h]

theorem persistStep_eq_new {ts : Int} {s : Store} {row : Row} {a : Value}
    (hta : truthyAutorizador row = some a) (hfc : findCurrent s a = none) :
    persistStep ts s row = insertRecord s a row ts := by
  unfold persistStep
  rw [hta]
  simp [hfc]

theorem persistStep_eq_changed {ts : Int} {s : Store} {row : Row} {a : Value}
    {c : HistoryRecord} (hta : truthyAutorizador row = some a)
    (hfc : findCurrent s a = some c)
    (hch : status_changed c.status_json row = true) :
    persistStep ts s row = insertRecord (closeRecord s c.id ts) a row ts := by
  unfold persistStep
  rw [hta]
  simp only [hfc, hch]
  rfl

theorem persistStep_eq_unchanged {ts : Int} {s : Store} {row : Row} {a : Value}
    {c : HistoryRecord} (hta : truthyAutorizador row = some a)
    (hfc : findCurrent s a = some c)
    (hch : status_changed c.status_json row = false) :
    persistStep ts s row = s := by
  unfold persistStep
  rw [hta]
  simp only [hfc, hch]
  rfl

/-! ### Preservation of the invariants -/

theorem findCurrent_mem {s : Store} {a : Value} {c : HistoryRecord}
    (h : findCurrent s a = some c) : c ∈ currents s a :=
  pickLatest_mem h

theorem findCurrent_none {s : Store} {a : Value}
    (h : findCurrent s a = none) : currents s a = [] :=
  pickLatest_eq_none h

theorem currents_eq_singleton {s : Store} {a : Value} {c : HistoryRecord}
    (hInv : Inv s) (h : findCurrent s a = some c) : currents s a = [c] :=
  mem_length_le_one (findCurrent_mem h) (hInv.1 a)

theorem currents_close_self {s : Store} {a : Value} {c : HistoryRecord}
    (hInv : Inv s) (h : findCurrent s a = some c) (ts : Int) :
    currents (closeRecord s c.id ts) a = [] := by
  rw [currents_def, closeRecord_records, List.filter_eq_nil_iff]
  intro x hx hpx
  obtain ⟨r, hr, rfl⟩ := List.mem_map.1 hx
  obtain ⟨hcur, hid⟩ := curPred_closeFn hpx
  have hmem : r ∈ currents s a := by
    rw [currents_def]
    exact List.mem_filter.mpr ⟨hr, hcur⟩
  rw [currents_eq_singleton hInv h] at hmem
  obtain rfl : r = c := by simpa using hmem
  exact hid rfl

theorem currentOpen_close {s : Store} (h : currentOpen s) (rid : Nat) (ts : Int) :
    currentOpen (closeRecord s rid ts) := by
  intro r hr hcur
  rw [closeRecord_records] at hr
  obtain ⟨x, hx, rfl⟩ := List.mem_map.1 hr
  unfold closeFn at hcur ⊢
  by_cases hid : x.id = rid
  · rw [if_pos hid] at hcur
    simp at hcur
  · rw [if_neg hid] at hcur ⊢
    exact h x hx hcur

theorem currentOpen_insert {s : Store} (h : currentOpen s) (a : Value)
    (row : Row) (ts : Int) : currentOpen (insertRecord s a row ts) := by
  intro r hr hcur
  have hr2 : r ∈ s.records ∨ r = newRecord s a row ts := by
    simpa [insertRecord] using hr
  rcases hr2 with hr2 | rfl
  · exact h r hr2 hcur
  · rfl

theorem idsOk_close {s : Store} (h : IdsOk s) (rid : Nat) (ts : Int) :
    IdsOk (closeRecord s rid ts) := by
  have hids : ((closeRecord s rid ts).records.map (·.id)) = s.records.map (·.id) := by
    rw [closeRecord_records, List.map_map]
    apply List.map_congr_left
    intro x _
    show (closeFn rid ts x).id = x.id
    unfold closeFn
    by_cases hid : x.id = rid
    · rw [if_pos hid]
    · rw [if_neg hid]
  constructor
  · intro r hr
    rw [closeRecord_records] at hr
    obtain ⟨x, hx, rfl⟩ := List.mem_map.1 hr
    have hb := h.1 x hx
    unfold closeFn
    by_cases hid : x.id = rid
    · rw [if_pos hid]
      exact hb
    · rw [if_neg hid]
      exact hb
  · rw [hids]
    exact h.2

theorem idsOk_insert {s : Store} (h : IdsOk s) (a : Value) (row : Row) (ts : Int) :
    IdsOk (insertRecord s a row ts) := by
  constructor
  · intro r hr
    have hr2 : r ∈ s.records ∨ r = newRecord s a row ts := by
      simpa [insertRecord] using hr
    rcases hr2 with hr2 | rfl
    · have := h.1 r hr2
      show r.id < s.nextId + 1
      omega
    · show s.nextId < s.nextId + 1
      omega
  · show ((s.records ++ [newRecord s a row ts]).map (·.id)).Nodup
    rw [List.map_append, List.nodup_append]
    refine ⟨h.2, by simp, ?_⟩
    intro x hx
    obtain ⟨r, hr, rfl⟩ := List.mem_map.1 hx
    have hb := h.1 r hr
    intro hmem
    have hb2 : r.id = s.nextId := by simpa [newRecord] using hmem
    omega

theorem wf_retention {s : Store} (h : WF s) (now maxDays : Int) :
    WF (applyRetentionPolicy now maxDays s) := by
  obtain ⟨⟨hlen, hopen⟩, hbound, hnodup⟩ := h
  have hrec : (applyRetentionPolicy now maxDays s).records
      = s.records.filter (fun r => !(retentionDeletes (now - maxDays * 86400) r)) := rfl
  refine ⟨⟨fun a => ?_, fun r hr hcur => ?_⟩, fun r hr => ?_, ?_⟩
  · rw [currents_def, hrec]
    exact le_trans (((List.filter_sublist _).filter (curPred a)).length_le) (hlen a)
  · rw [hrec] at hr
    exact hopen r (List.mem_filter.mp hr).1 hcur
  · rw [hrec] at hr
    exact hbound r (List.mem_filter.mp hr).1
  · rw [hrec]
    exact List.Nodup.sublist ((List.filter_sublist _).map _) hnodup

theorem inv_insert {s : Store} (hInv : Inv s) (a : Value) (row : Row) (ts : Int)
    (hempty : currents s a = []) : Inv (insertRecord s a row ts) := by
  constructor
  · intro b
    rw [currents_insert]
    by_cases hab : a = b
    · rw [if_pos hab, ← hab, hempty]
      simp
    · rw [if_neg hab]
      simpa using hInv.1 b
  · exact currentOpen_insert hInv.2 a row ts

theorem inv_close {s : Store} (hInv : Inv s) (rid : Nat) (ts : Int) :
    Inv (closeRecord s rid ts) :=
  ⟨fun b => le_trans (currents_close_le s rid ts b) (hInv.1 b),
   currentOpen_close hInv.2 rid ts⟩

theorem persistStep_wf {s : Store} (h : WF s) (ts : Int) (row : Row) :
    WF (persistStep ts s row) := by
  cases hta : truthyAutorizador row with
  | none =>
    rw [persistStep_eq_skip hta]
    exact h
  | some a =>
    cases hfc : findCurrent s a with
    | none =>
      rw [persistStep_eq_new hta hfc]
      exact ⟨inv_insert h.1 a row ts (findCurrent_none hfc),
             idsOk_insert h.2 a row ts⟩
    | some c =>
      cases hch : status_changed c.status_json row with
      | false =>
        rw [persistStep_eq_unchanged hta hfc hch]
        exact h
      | true =>
        rw [persistStep_eq_changed hta hfc hch]
        exact ⟨inv_insert (inv_close h.1 c.id ts) a row ts
                 (currents_close_self h.1 hfc ts),
               idsOk_insert (idsOk_close h.2 c.id ts) a row ts⟩

/-! ### C1: the invariant holds along every operation sequence -/

theorem persist_eq_valid {data : NFEResult} {ts : Int} (hs : data.success = true)
    (ht : data.checked_at = some ts) (now maxDays : Int) (s : Store) :
    persist now maxDays s data =
      (applyRetentionPolicy now maxDays
        (data.statuses.foldl (persistStep ts) s), true) := by
  unfold persist
  rw [hs, ht]

theorem persist_eq_invalid {data : NFEResult}
    (h : data.success = false ∨ data.checked_at = none)
    (now maxDays : Int) (s : Store) :
    persist now maxDays s data = (s, false) := by
  rcases h with h | h
  · unfold persist
    rw [h]
  · cases hs : data.success
    · unfold persist
      rw [hs]
    · unfold persist
      rw [hs, h]

theorem foldl_persistStep_wf (ts : Int) :
    ∀ (rows : List Row) (s : Store), WF s → WF (rows.foldl (persistStep ts) s)
  | [], _, h => h
  | row :: rest, s, h =>
    foldl_persistStep_wf ts rest (persistStep ts s row) (persistStep_wf h ts row)

theorem persist_wf {s : Store} (h : WF s) (now maxDays : Int) (data : NFEResult) :
    WF (persist now maxDays s data).1 := by
  cases hs : data.success with
  | false =>
    rw [persist_eq_invalid (Or.inl hs)]
    exact h
  | true =>
    cases ht : data.checked_at with
    | none =>
      rw [persist_eq_invalid (Or.inr ht)]
      exact h
    | some ts =>
      rw [persist_eq_valid hs ht]
      exact wf_retention (foldl_persistStep_wf ts data.statuses s h) now maxDays

/-- One write operation against the store: a `persist` call (with the
clock instant its retention step reads) or a standalone
`apply_retention_policy` call. -/
inductive Op where
  | persistOp (now maxDays : Int) (data : NFEResult)
  | retentionOp (now maxDays : Int)

def applyOp (s : Store) : Op → Store
  | .persistOp now maxDays data => (persist now maxDays s data).1
  | .retentionOp now maxDays => applyRetentionPolicy now maxDays s

/-- The store after a sequence of operations starting from the empty
store. -/
def runOps (ops : List Op) : Store := ops.foldl applyOp emptyStore

theorem foldl_applyOp_wf : ∀ (ops : List Op) (s : Store), WF s →
    WF (ops.foldl applyOp s)
  | [], _, h => h
  | op :: rest, s, h => by
    apply foldl_applyOp_wf rest
    cases op with
    | persistOp now maxDays data => exact persist_wf h now maxDays data
    | retentionOp now maxDays => exact wf_retention h now maxDays

/-- C1: after any sequence of `persist` and `apply_retention_policy`
calls starting from an empty store, each `autorizador` has at most one
current record, and that record's `valid_to` is null; each call
preserves the predicate (`persist_wf` and `wf_retention` are the
inductive steps). -/
theorem scd2_invariant (ops : List Op) : Inv (runOps ops) :=
  (foldl_applyOp_wf ops emptyStore wf_empty).1

/-! ### C2: idempotence of `persist` -/

theorem dictEqB_refl (r : Row) : dictEqB r r = true := by
  unfold dictEqB
  rw [Bool.and_eq_true]
  constructor <;>
    · rw [List.all_eq_true]
      intro p _
      simp

theorem status_changed_self (r : Row) : status_changed r r = false := by
  unfold status_changed
  rw [dictEqB_refl]
  rfl

theorem persistStep_currents_self {s : Store} (hwf : WF s) (ts : Int) {row : Row}
    {a : Value} (hta : truthyAutorizador row = some a) :
    ∃ c', currents (persistStep ts s row) a = [c'] ∧
      status_changed c'.status_json row = false := by
  cases hfc : findCurrent s a with
  | none =>
    rw [persistStep_eq_new hta hfc]
    refine ⟨newRecord s a row ts, ?_, ?_⟩
    · rw [currents_insert, findCurrent_none hfc]
      simp
    · show status_changed row row = false
      exact status_changed_self row
  | some c =>
    cases hch : status_changed c.status_json row with
    | false =>
      rw [persistStep_eq_unchanged hta hfc hch]
      exact ⟨c, currents_eq_singleton hwf.1 hfc, hch⟩
    | true =>
      rw [persistStep_eq_changed hta hfc hch]
      refine ⟨newRecord (closeRecord s c.id ts) a row ts, ?_, ?_⟩
      · rw [currents_insert, currents_close_self hwf.1 hfc ts]
        simp
      · show status_changed row row = false
        exact status_changed_self row

theorem currents_close_other {s : Store} (hIds : IdsOk s) {c : HistoryRecord}
    (hc : c ∈ s.records) {b : Value} (hb : curPred b c = false) (ts : Int) :
    currents (closeRecord s c.id ts) b = currents s b := by
  rw [currents_def, currents_def, closeRecord_records]
  apply filter_map_eq_filter
  intro r hr
  by_cases hid : r.id = c.id
  · obtain rfl : r = c :=
      List.inj_on_of_nodup_map hIds.2 hr hc hid
    constructor
    · unfold closeFn
      rw [if_pos rfl]
      rw [hb]
      simp [curPred]
    · intro hcp
      rw [hcp] at hb
      cases hb
  · constructor
    · unfold closeFn
      rw [if_neg hid]
    · intro _
      unfold closeFn
      rw [if_neg hid]

theorem persistStep_currents_other {s : Store} (hwf : WF s) (ts : Int) {row : Row}
    {b : Value} (hb : truthyAutorizador row ≠ some b) :
    currents (persistStep ts s row) b = currents s b := by
  cases hta : truthyAutorizador row with
  | none => rw [persistStep_eq_skip hta]
  | some a =>
    have hab : ¬(a = b) := fun he => hb (he ▸ hta)
    cases hfc : findCurrent s a with
    | none =>
      rw [persistStep_eq_new hta hfc, currents_insert, if_neg hab]
      simp
    | some c =>
      cases hch : status_changed c.status_json row with
      | false => rw [persistStep_eq_unchanged hta hfc hch]
      | true =>
        rw [persistStep_eq_changed hta hfc hch, currents_insert, if_neg hab,
          List.append_nil]
        have hcmem : c ∈ s.records := by
          have := findCurrent_mem hfc
          rw [currents_def] at this
          exact (List.mem_filter.mp this).1
        have hca : c.autorizador = a := by
          have := findCurrent_mem hfc
          rw [currents_def] at this
          have hp := (List.mem_filter.mp this).2
          simp [curPred] at hp
          exact hp.1
        have hpb : curPred b c = false := by
          unfold curPred
          rw [hca]
          simp [hab]
        exact currents_close_other hwf.2 hcmem hpb ts

theorem foldl_currents_other (ts : Int) :
    ∀ (rows : List Row) (s : Store), WF s →
      ∀ b : Value, (∀ row ∈ rows, truthyAutorizador row ≠ some b) →
        currents (rows.foldl (persistStep ts) s) b = currents s b
  | [], _, _, _, _ => rfl
  | row :: rest, s, hwf, b, hall => by
    rw [List.foldl_cons,
      foldl_currents_other ts rest _ (persistStep_wf hwf ts row) b
        (fun r hr => hall r (List.mem_cons_of_mem _ hr))]
    exact persistStep_currents_other hwf ts (hall row (List.mem_cons_self _ _))

theorem foldl_post (ts : Int) :
    ∀ (rows : List Row) (s : Store), WF s →
      (rows.filterMap truthyAutorizador).Nodup →
      ∀ row ∈ rows, ∀ a, truthyAutorizador row = some a →
        ∃ c', currents (rows.foldl (persistStep ts) s) a = [c'] ∧
          status_changed c'.status_json row = false
  | [], _, _, _ => by
    intro row hrow
    simp at hrow
  | row0 :: rest, s, hwf, hnd => by
    intro row hrow a hta
    rw [List.foldl_cons]
    have hwf' := persistStep_wf hwf ts row0
    rcases List.mem_cons.1 hrow with rfl | hr
    · have hnotin : ∀ r ∈ rest, truthyAutorizador r ≠ some a := by
        intro r hr he
        have hmem : a ∈ rest.filterMap truthyAutorizador :=
          List.mem_filterMap.2 ⟨r, hr, he⟩
        rw [List.filterMap_cons, hta] at hnd
        exact (List.nodup_cons.1 hnd).1 hmem
      rw [foldl_currents_other ts rest _ hwf' a hnotin]
      exact persistStep_currents_self hwf ts hta
    · have hnd' : (rest.filterMap truthyAutorizador).Nodup := by
        rw [List.filterMap_cons] at hnd
        cases h0 : truthyAutorizador row0 with
        | none => rwa [h0] at hnd
        | some b =>
          rw [h0] at hnd
          exact (List.nodup_cons.1 hnd).2
      exact foldl_post ts rest _ hwf' hnd' row hr a hta

theorem currents_retention {s : Store} (hopen : currentOpen s)
    (now maxDays : Int) (a : Value) :
    currents (applyRetentionPolicy now maxDays s) a = currents s a := by
  rw [currents_def, currents_def]
  show ((s.records.filter _).filter (curPred a)) = _
  rw [List.filter_filter]
  apply List.filter_congr
  intro r hr
  by_cases hp : curPred a r = true
  · have hcur : r.is_current = true := by
      simp [curPred] at hp
      exact hp.2
    have hvt := hopen r hr hcur
    simp [hp, retentionDeletes, hvt]
  · simp [hp]

theorem foldl_skip (ts : Int) :
    ∀ (rows : List Row) (s : Store),
      (∀ row ∈ rows, ∀ a, truthyAutorizador row = some a →
        ∃ c', currents s a = [c'] ∧ status_changed c'.status_json row = false) →
      rows.foldl (persistStep ts) s = s
  | [], _, _ => rfl
  | row :: rest, s, h => by
    have hstep : persistStep ts s row = s := by
      cases hta : truthyAutorizador row with
      | none => exact persistStep_eq_skip hta
      | some a =>
        obtain ⟨c', hc', hch⟩ := h row (List.mem_cons_self _ _) a hta
        have hfc : findCurrent s a = some c' := by
          show pickLatest (currents s a) = some c'
          rw [hc']
          rfl
        exact persistStep_eq_unchanged hta hfc hch
    rw [List.foldl_cons, hstep]
    exact foldl_skip ts rest s (fun r hr => h r (List.mem_cons_of_mem _ hr))

theorem retention_idem (now maxDays : Int) (s : Store) :
    applyRetentionPolicy now maxDays (applyRetentionPolicy now maxDays s) =
      applyRetentionPolicy now maxDays s := by
  simp only [applyRetentionPolicy]
  rw [List.filter_filter]
  congr 1
  apply List.filter_congr
  intro r _
  exact Bool.and_self _

/-- C2 amended: over a store satisfying the SCD2 invariants, for a valid
snapshot whose rows carry pairwise-distinct truthy `autorizador` values,
and with the retention clock held fixed between the calls, persisting
the snapshot a second time leaves the store exactly as after the first
call (in particular inserts zero new records), returns true, and leaves
exactly one current record per snapshot entity. -/
theorem persist_idempotent (now maxDays : Int) (s : Store) (data : NFEResult)
    {ts : Int} (hwf : WF s) (hs : data.success = true)
    (ht : data.checked_at = some ts)
    (hkeys : (data.statuses.filterMap truthyAutorizador).Nodup) :
    persist now maxDays (persist now maxDays s data).1 data =
      ((persist now maxDays s data).1, true) ∧
    ∀ a ∈ data.statuses.filterMap truthyAutorizador,
      (currents (persist now maxDays s data).1 a).length = 1 := by
  have hF : WF (data.statuses.foldl (persistStep ts) s) :=
    foldl_persistStep_wf ts data.statuses s hwf
  have hfirst : (persist now maxDays s data).1 =
      applyRetentionPolicy now maxDays
        (data.statuses.foldl (persistStep ts) s) := by
    rw [persist_eq_valid hs ht]
  have hpostS1 : ∀ row ∈ data.statuses, ∀ a, truthyAutorizador row = some a →
      ∃ c', currents (persist now maxDays s data).1 a = [c'] ∧
        status_changed c'.status_json row = false := by
    intro row hrow a hta
    obtain ⟨c', hc', hch⟩ := foldl_post ts data.statuses s hwf hkeys row hrow a hta
    refine ⟨c', ?_, hch⟩
    rw [hfirst, currents_retention hF.1.2 now maxDays a, hc']
  constructor
  · rw [persist_eq_valid hs ht now maxDays (persist now maxDays s data).1,
      foldl_skip ts data.statuses _ hpostS1, hfirst, retention_idem]
  · intro a ha
    obtain ⟨row, hrow, hta⟩ := List.mem_filterMap.1 ha
    obtain ⟨c', hc', _⟩ := hpostS1 row hrow a hta
    rw [hc']
    rfl

/-! ### Concrete rows and snapshots -/

def rowVerde : Row := [("autorizador", Value.str "SVAN"), ("status", Value.str "verde")]

def rowAmarelo : Row := [("autorizador", Value.str "SVAN"), ("status", Value.str "amarelo")]

def snapVerde : NFEResult :=
  ⟨some 100, [rowVerde], true, none⟩

/-- A snapshot carrying two rows for the same entity with different values. -/
def snapDup : NFEResult :=
  ⟨some 100, [rowVerde, rowAmarelo], true, none⟩

/-- C2 counterexample: on a snapshot with two rows for the same
`autorizador` carrying different values, the second `persist` call is not
a no-op: each call closes and re-inserts both versions, so the second
call adds two more history records (2 → 4). -/
theorem persist_not_idempotent_on_dup :
    (persist 0 30 emptyStore snapDup).1.records.length = 2 ∧
    (persist 0 30 (persist 0 30 emptyStore snapDup).1 snapDup).1.records.length = 4 := by
  constructor
  · decide
  · decide

theorem persist_idempotent_witness :
    (WF emptyStore ∧ snapVerde.success = true ∧
      snapVerde.checked_at = some 100 ∧
      (snapVerde.statuses.filterMap truthyAutorizador).Nodup) ∧
    (persist 5 30 (persist 5 30 emptyStore snapVerde).1 snapVerde =
       ((persist 5 30 emptyStore snapVerde).1, true) ∧
     ∀ a ∈ snapVerde.statuses.filterMap truthyAutorizador,
       (currents (persist 5 30 emptyStore snapVerde).1 a).length = 1) :=
  ⟨⟨wf_empty, rfl, rfl, by decide⟩,
   persist_idempotent 5 30 emptyStore snapVerde wf_empty rfl rfl (by decide)⟩

/-! ### C3: change detection -/

/-- All history records of one entity. -/
def recordsFor (s : Store) (a : Value) : List HistoryRecord :=
  s.records.filter (fun r => r.autorizador = a)

theorem filter_map_comm {α : Type} (f : α → α) (p : α → Bool)
    (h : ∀ r, p (f r) = p r) :
    ∀ l : List α, (l.map f).filter p = (l.filter p).map f
  | [] => rfl
  | r :: t => by
    simp only [List.map_cons, List.filter_cons, h r]
    by_cases hp : p r = true
    · rw [if_pos hp, if_pos hp, List.map_cons, filter_map_comm f p h t]
    · rw [if_neg hp, if_neg hp, filter_map_comm f p h t]

/-- C3: over a store holding exactly one (current) record `c` for entity
`a`, persisting a single-row snapshot for `a` whose row differs
structurally from `c.status_json`, stamped with a later `T2` that the
retention cutoff does not reach, leaves exactly two records for `a`: the
old one closed at `T2` (`is_current` false) and a fresh current one with
`valid_from = T2` and null `valid_to`. -/
theorem scd2_change_detection (now maxDays T2 : Int) (s : Store)
    {a : Value} {c : HistoryRecord} {row : Row} (_hwf : WF s)
    (hrec : recordsFor s a = [c])
    (hcur : c.is_current = true)
    (hta : truthyAutorizador row = some a)
    (hch : status_changed c.status_json row = true)
    (_hT : c.valid_from < T2)
    (hcut : now - maxDays * 86400 ≤ T2) :
    recordsFor (persist now maxDays s ⟨some T2, [row], true, none⟩).1 a =
      [{ c with valid_to := some T2, is_current := false },
       { id := s.nextId, autorizador := a, status_json := row,
         valid_from := T2, valid_to := none, is_current := true }] := by
  have hcs : currents s a = [c] := by
    rw [currents_def]
    have hsplit : s.records.filter (curPred a)
        = (recordsFor s a).filter (fun r => r.is_current) := by
      rw [recordsFor, List.filter_filter]
      apply List.filter_congr
      intro r _
      simp [curPred, Bool.and_comm]
    rw [hsplit, hrec]
    simp [hcur]
  have hfc : findCurrent s a = some c := by
    show pickLatest (currents s a) = some c
    rw [hcs]
    rfl
  have hpersist : (persist now maxDays s ⟨some T2, [row], true, none⟩).1 =
      applyRetentionPolicy now maxDays
        (insertRecord (closeRecord s c.id T2) a row T2) := by
    rw [persist_eq_valid rfl rfl]
    show applyRetentionPolicy _ _ (persistStep T2 s row) = _
    rw [persistStep_eq_changed hta hfc hch]
  rw [hpersist]
  have hX : recordsFor (insertRecord (closeRecord s c.id T2) a row T2) a =
      [{ c with valid_to := some T2, is_current := false },
       { id := s.nextId, autorizador := a, status_json := row,
         valid_from := T2, valid_to := none, is_current := true }] := by
    show ((closeRecord s c.id T2).records ++
        [newRecord (closeRecord s c.id T2) a row T2]).filter _ = _
    rw [List.filter_append, closeRecord_records]
    rw [filter_map_comm (closeFn c.id T2) (fun r => r.autorizador = a)
      (fun r => by
        unfold closeFn
        by_cases hid : r.id = c.id
        · rw [if_pos hid]
        · rw [if_neg hid])]
    rw [show s.records.filter (fun r => r.autorizador = a) = recordsFor s a from rfl,
      hrec]
    have hca : c.autorizador = a := by
      have hmem : c ∈ recordsFor s a := by
        rw [hrec]
        exact List.mem_singleton.mpr rfl
      have := (List.mem_filter.mp hmem).2
      simpa using this
    simp [closeFn, newRecord, hca]
    rfl
  rw [show (applyRetentionPolicy now maxDays
        (insertRecord (closeRecord s c.id T2) a row T2)) =
      { records := (insertRecord (closeRecord s c.id T2) a row T2).records.filter
          (fun r => !(retentionDeletes (now - maxDays * 86400) r)),
        nextId := (insertRecord (closeRecord s c.id T2) a row T2).nextId } from rfl]
  show ((insertRecord (closeRecord s c.id T2) a row T2).records.filter
      (fun r => !(retentionDeletes (now - maxDays * 86400) r))).filter
        (fun r => r.autorizador = a) = _
  rw [List.filter_filter]
  have hcomm : ∀ l : List HistoryRecord,
      l.filter (fun r => (r.autorizador = a : Bool) &&
        !(retentionDeletes (now - maxDays * 86400) r))
      = (l.filter (fun r => r.autorizador = a)).filter
          (fun r => !(retentionDeletes (now - maxDays * 86400) r)) := by
    intro l
    rw [List.filter_filter]
    apply List.filter_congr
    intro r _
    exact Bool.and_comm _ _
  rw [hcomm, show (insertRecord (closeRecord s c.id T2) a row T2).records.filter
      (fun r => r.autorizador = a)
      = recordsFor (insertRecord (closeRecord s c.id T2) a row T2) a from rfl, hX]
  have hkeep : retentionDeletes (now - maxDays * 86400)
      { c with valid_to := some T2, is_current := false } = false := by
    simp only [retentionDeletes]
    simp only [decide_eq_false_iff_not]
    omega
  simp [hkeep, retentionDeletes]
  omega

def snapVerdeT1 : NFEResult := ⟨some 50, [rowVerde], true, none⟩

def storeAfterVerde : Store := (persist 0 30 emptyStore snapVerdeT1).1

def recVerde : HistoryRecord := ⟨0, Value.str "SVAN", rowVerde, 50, none, true⟩

theorem scd2_change_detection_witness :
    (WF storeAfterVerde ∧
     recordsFor storeAfterVerde (Value.str "SVAN") = [recVerde] ∧
     recVerde.is_current = true ∧
     truthyAutorizador rowAmarelo = some (Value.str "SVAN") ∧
     status_changed recVerde.status_json rowAmarelo = true ∧
     recVerde.valid_from < 100 ∧
     (0 : Int) - 30 * 86400 ≤ 100) ∧
    recordsFor
        (persist 0 30 storeAfterVerde ⟨some 100, [rowAmarelo], true, none⟩).1
        (Value.str "SVAN") =
      [{ recVerde with valid_to := some 100, is_current := false },
       { id := storeAfterVerde.nextId, autorizador := Value.str "SVAN",
         status_json := rowAmarelo, valid_from := 100, valid_to := none,
         is_current := true }] :=
  ⟨⟨persist_wf wf_empty 0 30 snapVerdeT1, by decide, rfl, by decide,
    by decide, by decide, by decide⟩,
   scd2_change_detection 0 30 100 storeAfterVerde
     (persist_wf wf_empty 0 30 snapVerdeT1) (by decide) rfl (by decide)
     (by decide) (by decide) (by decide)⟩

/-! ## Static reference data and table extraction (C7, C8) -/

/-- `IMG_MAP` (lines 46-51). -/
def imgMap : List (String × String) :=
  [("bola_verde_P.png", "verde"), ("bola_amarela_P.png", "amarelo"),
   ("bola_vermelho_P.png", "vermelho"), ("bola_cinza_P.png", "cinza")]

/-- `AUTORIZADOR_INFO` (lines 54-63), in dict insertion order. -/
def autorizadorInfo : List (String × Row) :=
  [("SVAN",
    [("tipo", Value.str "Sefaz Virtual Ambiente Nacional"),
     ("ufs_autorizador", Value.vlist ["MA"])]),
   ("SVRS",
    [("tipo", Value.str "Sefaz Virtual Rio Grande do Sul"),
     ("ufs_autorizador", Value.vlist
       ["AC","AL","AP","CE","DF","ES","PA","PB","PI","RJ","RN","RO","RR","SC","SE","TO"]),
     ("ufs_consulta_cadastro", Value.vlist ["AC","ES","RN","PB","SC"])]),
   ("SVC-AN",
    [("tipo", Value.str "Contingência Nacional"),
     ("ufs_contingencia", Value.vlist
       ["AC","AL","AP","CE","DF","ES","MG","PA","PB","PI","RJ","RN","RO","RR","RS","SC","SE","SP","TO"])]),
   ("SVC-RS",
    [("tipo", Value.str "Contingência RS"),
     ("ufs_contingencia", Value.vlist ["AM","BA","GO","MA","MS","MT","PE","PR"])])]

/-- A table cell: the `src` of an embedded `img`, if any, and the cell's
stripped text. -/
structure Cell where
  img : Option String
  text : String
deriving DecidableEq, Repr

/-- One `tr` element: its `th` texts and its `td` cells. -/
structure Tr where
  ths : List String
  tds : List Cell
deriving DecidableEq, Repr

/-- The status table.  `captionTs` models `parse_timestamp`'s result on
the caption (no claim concerns the caption regex itself); `trs` are the
`tr` elements in document order. -/
structure Table where
  captionTs : Option Int
  trs : List Tr
deriving DecidableEq, Repr

/-- `validate_table` (lines 153-172): table present, a first `tr`
exists, it has at least two `th` cells, and at least one of
`"Autorizador"`, `"Status"` appears among the `th` texts. -/
def validate_table (t : Option Table) : Bool :=
  match t with
  | none => false
  | some tbl =>
    match tbl.trs.head? with
    | none => false
    | some hr =>
      if hr.ths.length < 2 then false
      else ["Autorizador", "Status"].any (fun h => hr.ths.contains h)

/-- Cell parsing (lines 219-227): an embedded image maps the last `/`
segment of its `src` through `IMG_MAP` with default `"desconhecido"`;
otherwise the trimmed text, empty text becoming null. -/
def cellValue (cell : Cell) : Value :=
  match cell.img with
  | some src =>
    Value.str ((imgMap.lookup ((src.splitOn "/").getLastD "")).getD "desconhecido")
  | none => if cell.text = "" then Value.null else Value.str cell.text

/-- One iteration of the cell loop (lines 217-229): set the normalized
key and track the `autorizador` variable. -/
def buildStep (acc : Row × Option Value) (p : String × Cell) : Row × Option Value :=
  let key := normalizeKey p.1
  let v := cellValue p.2
  (dictSet acc.1 key v, if key = "autorizador" then some v else acc.2)

/-- The cell loop of `parse_and_enrich` over one data row. -/
def buildRow (headers : List String) (cells : List Cell) : Row × Option Value :=
  (headers.zip cells).foldl buildStep ([], none)

/-- `isinstance(val, list) and autorizador in val` over one reference
entry's values: `None` (and any non-string identifier) is contained in
no list. -/
def entryContains (info : Row) (aut : Option Value) : Bool :=
  info.any (fun q =>
    match q.2, aut with
    | Value.vlist l, some (Value.str s) => l.contains s
    | _, _ => false)

/-- The fallback scan of lines 232-237.  The `break` leaves only the
inner loop over one entry's values, so the outer loop continues and each
later entry whose lists contain the identifier overwrites `meta`: the
scan records the last containing entry, or nothing. -/
def scanRelated (aut : Option Value) : Row :=
  autorizadorInfo.foldl
    (fun meta e =>
      if entryContains e.2 aut then [("relacionado_a", Value.str e.1)] else meta)
    []

/-- `AUTORIZADOR_INFO.get(autorizador, {})` (line 231): a direct key
lookup; `None` matches no key. -/
def directMeta (aut : Option Value) : Row :=
  match aut with
  | some (Value.str s) => (autorizadorInfo.lookup s).getD []
  | _ => []

/-- Lines 230-239: direct metadata if non-empty, else the containment
scan; the chosen meta fields are merged into the row under normalized
keys. -/
def enrichRow (row : Row) (aut : Option Value) : Row :=
  let meta := directMeta aut
  let meta := if meta = [] then scanRelated aut else meta
  meta.foldl (fun r q => dictSet r (normalizeKey q.1) q.2) row

/-- Parsing plus enrichment of one data row (lines 208-243). -/
def extractRow (headers : List String) (tr : Tr) : Row :=
  let bp := buildRow headers tr.tds
  enrichRow bp.1 bp.2

/-- The header texts the loop re-reads from the first `tr` (line 202). -/
def headersOf (tbl : Table) : List String :=
  (tbl.trs.headD ⟨[], []⟩).ths

/-- `parse_and_enrich` (lines 193-252) over the pre-parsed table
(`soup.find` result; `none` when the table is absent).  A failed
validation yields the fixed failed snapshot; data rows whose cell count
differs from the header count are skipped. -/
def parse_and_enrich : Option Table → NFEResult
  | none => ⟨none, [], false, some "Invalid table structure"⟩
  | some tbl =>
    if validate_table (some tbl) then
      let headers := headersOf tbl
      let rows := (tbl.trs.drop 1).filterMap
        (fun tr =>
          if tr.tds.length = headers.length
          then some (extractRow headers tr) else none)
      ⟨tbl.captionTs, rows, true, none⟩
    else ⟨none, [], false, some "Invalid table structure"⟩

/-! ### Dictionary lemmas -/

theorem find?_map_update {k : String} {v : Value} :
    ∀ d : Row, d.any (fun p => p.1 = k) = true →
      (d.map (fun p => if p.1 = k then (k, v) else p)).find?
        (fun p => p.1 = k) = some (k, v)
  | [], h => by simp at h
  | p :: rest, h => by
    by_cases hp : p.1 = k
    · simp [List.find?_cons, hp]
    · have hrest : rest.any (fun p => p.1 = k) = true := by
        simpa [hp] using h
      simp only [List.map_cons, if_neg hp, List.find?_cons]
      rw [show (decide (p.1 = k)) = false by simp [hp]]
      exact find?_map_update rest hrest

theorem find?_append_fresh {k : String} {v : Value} :
    ∀ d : Row, d.any (fun p => p.1 = k) = false →
      (d ++ [(k, v)]).find? (fun p => p.1 = k) = some (k, v)
  | [], _ => by simp
  | p :: rest, h => by
    have hp : ¬(p.1 = k) := by
      intro he
      simp [he] at h
    have hrest : rest.any (fun p => p.1 = k) = false := by
      simpa [hp] using h
    simp only [List.cons_append, List.find?_cons]
    rw [show (decide (p.1 = k)) = false by simp [hp]]
    exact find?_append_fresh rest hrest

theorem dictGet_dictSet_self (d : Row) (k : String) (v : Value) :
    dictGet (dictSet d k v) k = some v := by
  unfold dictGet dictSet
  by_cases hany : d.any (fun p => p.1 = k) = true
  · rw [if_pos hany, find?_map_update d hany]
    rfl
  · have hany2 : d.any (fun p => p.1 = k) = false := by
      cases hb : d.any (fun p => p.1 = k)
      · rfl
      · exact absurd hb hany
    rw [if_neg hany, find?_append_fresh d hany2]
    rfl

theorem find?_map_update_ne {k k' : String} {v : Value} (hne : k' ≠ k) :
    ∀ d : Row,
      (d.map (fun p => if p.1 = k then (k, v) else p)).find?
        (fun p => p.1 = k') = d.find? (fun p => p.1 = k')
  | [] => rfl
  | p :: rest => by
    by_cases hp : p.1 = k
    · simp only [List.map_cons, if_pos hp, List.find?_cons]
      rw [show (decide ((k, v).1 = k')) = false by simp [Ne.symm hne]]
      rw [show (decide (p.1 = k')) = false by simp [hp, Ne.symm hne]]
      exact find?_map_update_ne hne rest
    · simp only [List.map_cons, if_neg hp, List.find?_cons]
      cases hp' : decide (p.1 = k') with
      | true => rfl
      | false => exact find?_map_update_ne hne rest

theorem dictGet_dictSet_ne (d : Row) (k k' : String) (v : Value) (hne : k' ≠ k) :
    dictGet (dictSet d k v) k' = dictGet d k' := by
  unfold dictGet dictSet
  by_cases hany : d.any (fun p => p.1 = k) = true
  · rw [if_pos hany, find?_map_update_ne hne d]
  · rw [if_neg hany, List.find?_append]
    rw [show ([(k, v)].find? (fun p => p.1 = k')) = none by simp [Ne.symm hne]]
    rw [Option.or_none]

/-! ### Build-row lemmas -/

theorem foldl_buildStep_get_notin :
    ∀ (ps : List (String × Cell)) (acc : Row × Option Value) (k : String),
      (∀ p ∈ ps, normalizeKey p.1 ≠ k) →
      dictGet (ps.foldl buildStep acc).1 k = dictGet acc.1 k
  | [], _, _, _ => rfl
  | p :: rest, acc, k, h => by
    rw [List.foldl_cons,
      foldl_buildStep_get_notin rest _ k
        (fun q hq => h q (List.mem_cons_of_mem _ hq))]
    exact dictGet_dictSet_ne _ _ _ _ (Ne.symm (h p (List.mem_cons_self _ _)))

theorem foldl_buildStep_get_mem :
    ∀ (ps : List (String × Cell)) (acc : Row × Option Value)
      (h0 : String) (cell : Cell),
      (h0, cell) ∈ ps → (ps.map (fun p => normalizeKey p.1)).Nodup →
      dictGet (ps.foldl buildStep acc).1 (normalizeKey h0) =
        some (cellValue cell)
  | [], _, _, _, hm, _ => by simp at hm
  | p :: rest, acc, h0, cell, hm, hnd => by
    rcases List.mem_cons.1 hm with he | hm'
    · subst he
      rw [List.foldl_cons,
        foldl_buildStep_get_notin rest _ _ ?notin]
      · exact dictGet_dictSet_self _ _ _
      case notin =>
        intro q hq he2
        have hin : normalizeKey h0 ∈ rest.map (fun p => normalizeKey p.1) :=
          List.mem_map.2 ⟨q, hq, he2⟩
        exact (List.nodup_cons.1 hnd).1 hin
    · rw [List.foldl_cons]
      exact foldl_buildStep_get_mem rest _ h0 cell hm' (List.nodup_cons.1 hnd).2

/-! ### Enrichment lemmas -/

theorem lookup_mem_pair {β : Type} :
    ∀ {t : List (String × β)} {a : String} {b : β},
      t.lookup a = some b → (a, b) ∈ t
  | [], _, _, h => by simp [List.lookup] at h
  | (k, v) :: rest, a, b, h => by
    by_cases he : a = k
    · subst he
      simp [List.lookup] at h
      exact h ▸ List.mem_cons_self _ _
    · have hne : (a == k) = false := beq_eq_false_iff_ne.mpr he
      simp only [List.lookup, hne] at h
      exact List.mem_cons_of_mem _ (lookup_mem_pair h)

theorem imgMap_default_vocab (fn : String) :
    ((imgMap.lookup fn).getD "desconhecido") ∈
      ["verde", "amarelo", "vermelho", "cinza", "desconhecido"] := by
  cases h : imgMap.lookup fn with
  | none => simp
  | some v =>
    have hmem : (fn, v) ∈ imgMap := lookup_mem_pair h
    simp only [imgMap, List.mem_cons, List.not_mem_nil, or_false,
      Prod.mk.injEq] at hmem
    rcases hmem with ⟨-, rfl⟩ | ⟨-, rfl⟩ | ⟨-, rfl⟩ | ⟨-, rfl⟩ <;> simp

theorem directMeta_keys (aut : Option Value) :
    ∀ q ∈ directMeta aut,
      normalizeKey q.1 ≠ "status" ∧ normalizeKey q.1 ≠ "autorizador" := by
  have hall : ∀ e ∈ autorizadorInfo, ∀ q ∈ e.2,
      normalizeKey q.1 ≠ "status" ∧ normalizeKey q.1 ≠ "autorizador" := by
    decide
  intro q hq
  cases aut with
  | none => simp [directMeta] at hq
  | some v =>
    cases v with
    | null => simp [directMeta] at hq
    | vlist l => simp [directMeta] at hq
    | str s =>
      rw [show directMeta (some (Value.str s))
          = (autorizadorInfo.lookup s).getD [] from rfl] at hq
      cases hl : autorizadorInfo.lookup s with
      | none =>
        rw [hl] at hq
        simp at hq
      | some info =>
        rw [hl] at hq
        exact hall (s, info) (lookup_mem_pair hl) q hq

theorem scanFold_cases (aut : Option Value) :
    ∀ (l : List (String × Row)) (acc : Row),
      (acc = [] ∨ ∃ code, acc = [("relacionado_a", Value.str code)]) →
      (l.foldl (fun meta e =>
          if entryContains e.2 aut then [("relacionado_a", Value.str e.1)]
          else meta) acc = [] ∨
        ∃ code, l.foldl (fun meta e =>
          if entryContains e.2 aut then [("relacionado_a", Value.str e.1)]
          else meta) acc = [("relacionado_a", Value.str code)])
  | [], _, h => h
  | e :: rest, acc, h => by
    rw [List.foldl_cons]
    apply scanFold_cases aut rest
    by_cases hce : entryContains e.2 aut = true
    · rw [if_pos hce]
      exact Or.inr ⟨e.1, rfl⟩
    · rw [if_neg hce]
      exact h

theorem scanRelated_cases (aut : Option Value) :
    scanRelated aut = [] ∨
      ∃ code, scanRelated aut = [("relacionado_a", Value.str code)] :=
  scanFold_cases aut autorizadorInfo [] (Or.inl rfl)

theorem foldl_metaSet_get_notin :
    ∀ (ms : Row) (r : Row) (k : String),
      (∀ q ∈ ms, normalizeKey q.1 ≠ k) →
      dictGet (ms.foldl (fun r q => dictSet r (normalizeKey q.1) q.2) r) k
        = dictGet r k
  | [], _, _, _ => rfl
  | q :: rest, r, k, h => by
    rw [List.foldl_cons,
      foldl_metaSet_get_notin rest _ k
        (fun p hp => h p (List.mem_cons_of_mem _ hp))]
    exact dictGet_dictSet_ne _ _ _ _ (Ne.symm (h q (List.mem_cons_self _ _)))

theorem enrich_get_key (row : Row) (aut : Option Value) (k : String)
    (hk : k = "status" ∨ k = "autorizador") :
    dictGet (enrichRow row aut) k = dictGet row k := by
  show dictGet ((if directMeta aut = [] then scanRelated aut
      else directMeta aut).foldl (fun r q => dictSet r (normalizeKey q.1) q.2)
    row) k = dictGet row k
  apply foldl_metaSet_get_notin
  intro q hq
  by_cases hd : directMeta aut = []
  · rw [if_pos hd] at hq
    rcases scanRelated_cases aut with hsc | ⟨code, hsc⟩
    · rw [hsc] at hq
      simp at hq
    · rw [hsc] at hq
      obtain rfl : q = ("relacionado_a", Value.str code) := by simpa using hq
      rcases hk with rfl | rfl
      · show normalizeKey "relacionado_a" ≠ "status"
        decide
      · show normalizeKey "relacionado_a" ≠ "autorizador"
        decide
  · rw [if_neg hd] at hq
    have hkeys := directMeta_keys aut q hq
    rcases hk with rfl | rfl
    · exact hkeys.1
    · exact hkeys.2

/-! ### C7 theorems -/

theorem extract_row_keys (headers : List String) (tr : Tr)
    (hnd : (headers.map normalizeKey).Nodup)
    (hlen : tr.tds.length = headers.length) :
    (∀ p ∈ headers.zip tr.tds, normalizeKey p.1 = "autorizador" →
      (dictGet (extractRow headers tr) "autorizador").isSome = true) ∧
    (∀ p ∈ headers.zip tr.tds, normalizeKey p.1 = "status" →
      p.2.img.isSome = true →
      ∃ s, dictGet (extractRow headers tr) "status" = some (Value.str s) ∧
        s ∈ ["verde", "amarelo", "vermelho", "cinza", "desconhecido"]) := by
  have hfst : (headers.zip tr.tds).map Prod.fst = headers :=
    List.map_fst_zip _ _ (le_of_eq hlen.symm)
  have hznd : ((headers.zip tr.tds).map (fun p => normalizeKey p.1)).Nodup := by
    have h2 : ((headers.zip tr.tds).map Prod.fst).map normalizeKey
        = (headers.zip tr.tds).map (fun p => normalizeKey p.1) := by
      rw [List.map_map]
      rfl
    rw [← h2, hfst]
    exact hnd
  constructor
  · intro p hp hkey
    have hz := foldl_buildStep_get_mem (headers.zip tr.tds) ([], none)
      p.1 p.2 hp hznd
    rw [hkey] at hz
    show (dictGet (enrichRow (buildRow headers tr.tds).1
        (buildRow headers tr.tds).2) "autorizador").isSome = true
    rw [enrich_get_key _ _ _ (Or.inr rfl),
      show (buildRow headers tr.tds)
        = (headers.zip tr.tds).foldl buildStep ([], none) from rfl, hz]
    rfl
  · intro p hp hkey himg
    obtain ⟨src, hsrc⟩ := Option.isSome_iff_exists.mp himg
    have hz := foldl_buildStep_get_mem (headers.zip tr.tds) ([], none)
      p.1 p.2 hp hznd
    rw [hkey] at hz
    have hcell : cellValue p.2 = Value.str
        ((imgMap.lookup ((src.splitOn "/").getLastD "")).getD "desconhecido") := by
      unfold cellValue
      rw [hsrc]
    refine ⟨(imgMap.lookup ((src.splitOn "/").getLastD "")).getD "desconhecido",
      ?_, imgMap_default_vocab _⟩
    show dictGet (enrichRow (buildRow headers tr.tds).1
        (buildRow headers tr.tds).2) "status" = _
    rw [enrich_get_key _ _ _ (Or.inl rfl),
      show (buildRow headers tr.tds)
        = (headers.zip tr.tds).foldl buildStep ([], none) from rfl, hz, hcell]

/-- C7 amended: for a table that passes validation and whose headers
normalize to pairwise-distinct keys, every row of the (successful)
extraction comes from a cell-count-matching data row; the row has an
`autorizador` key whenever some header normalizes to `autorizador`, and
whenever the cell under a header normalizing to `status` embeds an
image, the row's `status` value is one of
`verde`/`amarelo`/`vermelho`/`cinza`/`desconhecido`.  A text status
cell carries the text itself, which the fixed vocabulary does not
constrain (see the counterexample), and an `autorizador`/`status` key is
absent when no header normalizes to it. -/
theorem parse_and_enrich_rows (tbl : Table)
    (hv : validate_table (some tbl) = true)
    (hnd : ((headersOf tbl).map normalizeKey).Nodup) :
    (parse_and_enrich (some tbl)).success = true ∧
    ∀ row ∈ (parse_and_enrich (some tbl)).statuses,
      ∃ tr ∈ tbl.trs.drop 1,
        tr.tds.length = (headersOf tbl).length ∧
        row = extractRow (headersOf tbl) tr ∧
        (∀ p ∈ (headersOf tbl).zip tr.tds,
          normalizeKey p.1 = "autorizador" →
            (dictGet row "autorizador").isSome = true) ∧
        (∀ p ∈ (headersOf tbl).zip tr.tds,
          normalizeKey p.1 = "status" → p.2.img.isSome = true →
            ∃ s, dictGet row "status" = some (Value.str s) ∧
              s ∈ ["verde", "amarelo", "vermelho", "cinza", "desconhecido"]) := by
  have hparse : parse_and_enrich (some tbl) =
      ⟨tbl.captionTs,
        (tbl.trs.drop 1).filterMap
          (fun tr =>
            if tr.tds.length = (headersOf tbl).length
            then some (extractRow (headersOf tbl) tr) else none),
        true, none⟩ := by
    show (if validate_table (some tbl) = true then
        let headers := headersOf tbl
        let rows := (tbl.trs.drop 1).filterMap
          (fun tr =>
            if tr.tds.length = headers.length
            then some (extractRow headers tr) else none)
        (⟨tbl.captionTs, rows, true, none⟩ : NFEResult)
      else ⟨none, [], false, some "Invalid table structure"⟩) = _
    rw [if_pos hv]
  rw [hparse]
  refine ⟨rfl, ?_⟩
  intro row hrow
  obtain ⟨tr, htr, hcond⟩ := List.mem_filterMap.1 hrow
  by_cases hlen : tr.tds.length = (headersOf tbl).length
  · rw [if_pos hlen] at hcond
    obtain rfl : extractRow (headersOf tbl) tr = row := by
      simpa using hcond
    obtain ⟨h1, h2⟩ := extract_row_keys (headersOf tbl) tr hnd hlen
    exact ⟨tr, htr, hlen, rfl, h1, h2⟩
  · rw [if_neg hlen] at hcond
    simp at hcond

/-- The table exhibiting C7's failure: valid headers, a text (not image)
status cell. -/
def badStatusTable : Table :=
  ⟨none, [⟨["Autorizador", "Status"], []⟩,
          ⟨[], [⟨none, "SVAN"⟩, ⟨none, "ok"⟩]⟩]⟩

/-- C7 counterexample: the table passes validation and extraction
succeeds, yet the extracted row's `status` value is the literal cell
text `"ok"`, which is not in the fixed status vocabulary — refuting the
claim that every extracted `status` value is one of the five codes. -/
theorem parse_status_not_in_vocab :
    validate_table (some badStatusTable) = true ∧
    (parse_and_enrich (some badStatusTable)).success = true ∧
    ∃ row ∈ (parse_and_enrich (some badStatusTable)).statuses,
      dictGet row "status" = some (Value.str "ok") ∧
        "ok" ∉ ["verde", "amarelo", "vermelho", "cinza", "desconhecido"] := by
  refine ⟨by decide, by decide, ?_⟩
  decide

/-- The well-behaved concrete table used by the C7 witness. -/
def goodTable : Table :=
  ⟨some 42, [⟨["Autorizador", "Status"], []⟩,
             ⟨[], [⟨none, "SVAN"⟩, ⟨some "imagens/bola_verde_P.png", ""⟩]⟩]⟩

theorem parse_and_enrich_rows_witness :
    (validate_table (some goodTable) = true ∧
      ((headersOf goodTable).map normalizeKey).Nodup) ∧
    ((parse_and_enrich (some goodTable)).success = true ∧
      ∀ row ∈ (parse_and_enrich (some goodTable)).statuses,
        ∃ tr ∈ goodTable.trs.drop 1,
          tr.tds.length = (headersOf goodTable).length ∧
          row = extractRow (headersOf goodTable) tr ∧
          (∀ p ∈ (headersOf goodTable).zip tr.tds,
            normalizeKey p.1 = "autorizador" →
              (dictGet row "autorizador").isSome = true) ∧
          (∀ p ∈ (headersOf goodTable).zip tr.tds,
            normalizeKey p.1 = "status" → p.2.img.isSome = true →
              ∃ s, dictGet row "status" = some (Value.str s) ∧
                s ∈ ["verde", "amarelo", "vermelho", "cinza", "desconhecido"])) :=
  ⟨⟨by decide, by decide⟩,
   parse_and_enrich_rows goodTable (by decide) (by decide)⟩

/-! ### C8 theorems -/

theorem scanFold_no_match (aut : Option Value) :
    ∀ (l : List (String × Row)) (acc : Row),
      (∀ e ∈ l, entryContains e.2 aut = false) →
      l.foldl (fun meta e =>
        if entryContains e.2 aut then [("relacionado_a", Value.str e.1)]
        else meta) acc = acc
  | [], _, _ => rfl
  | e :: rest, acc, h => by
    rw [List.foldl_cons,
      if_neg (by simp [h e (List.mem_cons_self _ _)])]
    exact scanFold_no_match aut rest acc
      (fun e' he' => h e' (List.mem_cons_of_mem _ he'))

/-- C8 amended: for an identifier with no direct key in the reference
data, contained in the list-valued attributes of entry `e` and of no
entry after `e`, enrichment attaches the single field
`relacionado_a = e`'s code and nothing else.  Because the `break` at
line 237 leaves only the inner loop, each later containing entry
overwrites the earlier one: the recorded code is that of the LAST
containing entry in reference-data order, not the first. -/
theorem relacionado_records_last (row : Row) (aut : Option Value)
    (l1 l2 : List (String × Row)) (e : String × Row)
    (hsplit : autorizadorInfo = l1 ++ e :: l2)
    (hdirect : directMeta aut = [])
    (hce : entryContains e.2 aut = true)
    (hafter : ∀ e' ∈ l2, entryContains e'.2 aut = false) :
    scanRelated aut = [("relacionado_a", Value.str e.1)] ∧
    enrichRow row aut = dictSet row "relacionado_a" (Value.str e.1) := by
  have hscan : scanRelated aut = [("relacionado_a", Value.str e.1)] := by
    unfold scanRelated
    rw [hsplit, List.foldl_append, List.foldl_cons, if_pos hce]
    exact scanFold_no_match aut l2 _ hafter
  refine ⟨hscan, ?_⟩
  show (if directMeta aut = [] then scanRelated aut else directMeta aut).foldl
      (fun r q => dictSet r (normalizeKey q.1) q.2) row = _
  rw [if_pos hdirect, hscan, List.foldl_cons, List.foldl_nil]
  show dictSet row (normalizeKey "relacionado_a") (Value.str e.1) = _
  rw [show normalizeKey "relacionado_a" = "relacionado_a" from by decide]

/-- C8 counterexample: the identifier `"AC"` has no direct key; the
lists of `SVRS` (the second entry) contain it, yet the scan records
`"SVC-AN"` (the third entry, the last containing one) — refuting "the
first such containing entry". -/
theorem relacionado_not_first :
    directMeta (some (Value.str "AC")) = [] ∧
    autorizadorInfo.map Prod.fst = ["SVAN", "SVRS", "SVC-AN", "SVC-RS"] ∧
    entryContains ((autorizadorInfo.lookup "SVRS").getD [])
      (some (Value.str "AC")) = true ∧
    scanRelated (some (Value.str "AC")) =
      [("relacionado_a", Value.str "SVC-AN")] ∧
    enrichRow [("autorizador", Value.str "AC")] (some (Value.str "AC")) =
      [("autorizador", Value.str "AC"),
       ("relacionado_a", Value.str "SVC-AN")] := by
  refine ⟨by decide, by decide, by decide, by decide, by decide⟩

theorem relacionado_records_last_witness :
    (autorizadorInfo = autorizadorInfo.take 2 ++
        (autorizadorInfo.getD 2 ("", [])) :: autorizadorInfo.drop 3 ∧
     directMeta (some (Value.str "AC")) = [] ∧
     entryContains (autorizadorInfo.getD 2 ("", [])).2
       (some (Value.str "AC")) = true ∧
     (∀ e' ∈ autorizadorInfo.drop 3,
       entryContains e'.2 (some (Value.str "AC")) = false)) ∧
    (scanRelated (some (Value.str "AC")) =
       [("relacionado_a", Value.str (autorizadorInfo.getD 2 ("", [])).1)] ∧
     enrichRow [("autorizador", Value.str "AC")] (some (Value.str "AC")) =
       dictSet [("autorizador", Value.str "AC")] "relacionado_a"
         (Value.str (autorizadorInfo.getD 2 ("", [])).1)) :=
  ⟨⟨by decide, by decide, by decide, by decide⟩,
   relacionado_records_last [("autorizador", Value.str "AC")]
     (some (Value.str "AC")) (autorizadorInfo.take 2)
     (autorizadorInfo.drop 3) (autorizadorInfo.getD 2 ("", []))
     (by decide) (by decide) (by decide) (by decide)⟩

theorem persist_exc_spec_witness :
    (snapEmptyOk.success = true ∧ snapEmptyOk.checked_at.isSome = true) ∧
    (((persistExc true true 0 30 emptyStore snapEmptyOk).2 = true ↔
        true = false) ∧
     persistExc true true 0 30 emptyStore snapEmptyOk = (emptyStore, false) ∧
     persistExc false false 0 30 emptyStore snapEmptyOk =
       persist 0 30 emptyStore snapEmptyOk) :=
  ⟨⟨rfl, rfl⟩, persist_exc_spec true true 0 30 emptyStore snapEmptyOk rfl rfl⟩

end NFE
